import Mathlib

/-!
Verification of the poker_equity repository (heads-up Texas Holdem equity
estimator) against its natural-language specification.

The development shallowly embeds the Python sources:
  * poker_equity/evaluator.py : 5-card and 7-card hand scoring
  * poker_equity/ranges.py    : range-grammar expansion and dead-card filtering
  * poker_equity/equity.py    : exact / Monte-Carlo equity estimation
Cards are integers 0..51 with suit = c / 13 and rank = c % 13 (cards.py).
Python tuples (category, tiebreaks) become Score = Int x List Nat and the
Python tuple comparison becomes scoreGtB.  Python sets of combos become
duplicate-free lists built by insertion (comboInsert), so cardinalities and
membership agree with the source sets.  Python functions that raise become
Except-valued functions.  The standard-library collaborators that live outside
the repository (random.Random, math.sqrt) are modelled as an explicit
environment record Env threaded through the estimator, so that sampling is a
deterministic function of the seed exactly as a seeded generator is.
-/

/-- rank of a card (evaluator.py _rank): card % 13, 0..12 with A = 12. -/
def rank (card : Nat) : Nat := card % 13

/-- suit of a card (evaluator.py _suit): card / 13, 0..3. -/
def suit (card : Nat) : Nat := card / 13

/-- A hand score: Python tuple (category, tiebreaker tuple).  The category is
an Int because evaluate7 seeds its running maximum with -1. -/
abbrev Score := Int × List Nat

/-- Python lexicographic tuple comparison (strict greater-than) on the
tiebreaker tuples: first differing entry decides, a strict initial segment is smaller. -/
def listGtB : List Nat → List Nat → Bool
  | [], _ => false
  | _ :: _, [] => true
  | a :: as, b :: bs => if b < a then true else if a < b then false else listGtB as bs

/-- Python comparison score > best on (category, tiebreaks) pairs. -/
def scoreGtB (a b : Score) : Bool :=
  decide (b.1 < a.1) || (decide (a.1 = b.1) && listGtB a.2 b.2)

/-- The descending order used by Python sorted(..., reverse=True) on ranks. -/
def rankGe (a b : Nat) : Prop := b ≤ a

instance : DecidableRel rankGe := fun a b => inferInstanceAs (Decidable (b ≤ a))

instance : IsTotal Nat rankGe := ⟨fun a b => Nat.le_total b a⟩

instance : IsTrans Nat rankGe := ⟨fun _ _ _ hab hbc => Nat.le_trans hbc hab⟩

instance : IsAntisymm Nat rankGe := ⟨fun _ _ h1 h2 => Nat.le_antisymm h2 h1⟩

/-- sorted(l, reverse=True) on natural numbers. -/
def sortDesc (l : List Nat) : List Nat := List.insertionSort rankGe l

/-- The descending order on (count, rank) pairs used for
sorted(((cnt, r) ...), key=lambda x: (x[0], x[1]), reverse=True):
descending lexicographically on (count, rank). -/
def pairGe (a b : Nat × Nat) : Prop := b.1 < a.1 ∨ (a.1 = b.1 ∧ b.2 ≤ a.2)

instance : DecidableRel pairGe :=
  fun a b => inferInstanceAs (Decidable (b.1 < a.1 ∨ (a.1 = b.1 ∧ b.2 ≤ a.2)))

instance : IsTotal (Nat × Nat) pairGe := by
  constructor
  intro a b
  unfold pairGe
  omega

instance : IsTrans (Nat × Nat) pairGe := by
  constructor
  intro a b c hab hbc
  unfold pairGe at *
  omega

instance : IsAntisymm (Nat × Nat) pairGe := by
  constructor
  intro a b hab hba
  unfold pairGe at *
  have h1 : a.1 = b.1 := by omega
  have h2 : a.2 = b.2 := by omega
  exact Prod.ext h1 h2

/-- The sliding-window part of evaluator.py _is_straight: scan every window of
five consecutive entries of the (descending, duplicate-free) rank list and
return the window head when the window is five strictly consecutive ranks.
Python represents the failure case as (False, -1); we use Option. -/
def straightWindows : List Nat → Option Nat
  | a :: b :: c :: d :: e :: rest =>
    if (a : Int) - (e : Int) = 4 ∧
        ((a : Int) - 1 = (b : Int) ∧ (b : Int) - 1 = (c : Int) ∧
         (c : Int) - 1 = (d : Int) ∧ (d : Int) - 1 = (e : Int)) then
      some a
    else straightWindows (b :: c :: d :: e :: rest)
  | _ => none

/-- evaluator.py _is_straight on the sorted unique descending ranks: a sliding
window straight, else the explicit wheel A,5,4,3,2 (ranks {12,3,2,1,0}) with
high card rank 3 (the five). -/
def isStraight (ranks : List Nat) : Option Nat :=
  match straightWindows ranks with
  | some h => some h
  | none => if [12, 3, 2, 1, 0].all (fun r => ranks.contains r) then some 3 else none

/-- The groups of _evaluate5: the (count, rank) pairs of the rank histogram —
dict insertion order is first occurrence in rs, i.e. the order of rs.dedup —
sorted descending by (count, rank). -/
def groupsOf (rs : List Nat) : List (Nat × Nat) :=
  List.insertionSort pairGe (rs.dedup.map (fun r => (rs.count r, r)))

/-- Core of evaluator.py _evaluate5, operating on rs = ranks sorted descending
and the flush flag (both already order-independent).  Python raises IndexError
on an empty hand; the headD/foldl defaults below are unreachable for the
5-card hands this is applied to. -/
def evaluate5Core (rs : List Nat) (is_flush : Bool) : Score :=
  let groups := groupsOf rs
  let uniq_desc := rs.dedup
  let strRes := isStraight uniq_desc
  let is_straight := strRes.isSome
  let straight_high := strRes.getD 0
  let g0 := groups.headD (0, 0)
  let g1 := (groups.drop 1).headD (0, 0)
  if is_straight && is_flush then
    (8, [straight_high])
  else if g0.1 = 4 then
    let quad_rank := g0.2
    let kicker := (rs.filter (fun r => r ≠ quad_rank)).foldl max 0
    (7, [quad_rank, kicker])
  else if g0.1 = 3 ∧ 2 ≤ groups.length ∧ 2 ≤ g1.1 then
    let trips := g0.2
    let pair := (((groups.drop 1).filter (fun g => 2 ≤ g.1)).map Prod.snd).foldl max 0
    (6, [trips, pair])
  else if is_flush then
    (5, rs)
  else if is_straight then
    (4, [straight_high])
  else if g0.1 = 3 then
    let trips := g0.2
    let kickers := (sortDesc (rs.filter (fun r => r ≠ trips))).take 2
    (3, trips :: kickers)
  else if g0.1 = 2 ∧ 2 ≤ groups.length ∧ g1.1 = 2 then
    let pairs := sortDesc ((groups.filter (fun g => g.1 = 2)).map Prod.snd)
    let kicker := (rs.filter (fun r => ¬ r ∈ pairs)).foldl max 0
    (2, [pairs.headD 0, (pairs.drop 1).headD 0, kicker])
  else if g0.1 = 2 then
    let pr := g0.2
    let kickers := (rs.filter (fun r => r ≠ pr)).take 3
    (1, pr :: kickers)
  else
    (0, rs)

/-- evaluator.py _evaluate5: rank a 5-card hand into (category, tiebreaks). -/
def evaluate5 (cards5 : List Nat) : Score :=
  evaluate5Core (sortDesc (cards5.map rank))
    (decide ((cards5.map suit).dedup.length = 1))

/-- One step of the running maximum in evaluate7: if score > best then best = score. -/
def pickBest (best s : Score) : Score := if scoreGtB s best then s else best

/-- The body of evaluator.py evaluate7: the running maximum of _evaluate5 over
all C(7,5) five-card sub-multisets, seeded with (-1, ()). -/
def bestOf (cards : List Nat) : Score :=
  (List.sublistsLen 5 cards).foldl (fun best comb => pickBest best (evaluate5 comb)) (-1, [])

/-- evaluator.py evaluate7: asserts exactly 7 cards (modelled as none), then
returns the best 5-card score. -/
def evaluate7 (cards : List Nat) : Option Score :=
  if cards.length = 7 then some (bestOf cards) else none

/-! ### ranges.py : range grammar expansion -/

/-- ranges.py _RANKS = "23456789TJQKA". -/
def RANKS : List Char := "23456789TJQKA".toList

/-- ranges.py _rank_idx: index of the (upper-cased) rank character. -/
def rankIdx (rc : Char) : Nat := RANKS.indexOf rc.toUpper

/-- ranges.py _card: suit * 13 + rank. -/
def card (rank_idx suit_idx : Nat) : Nat := suit_idx * 13 + rank_idx

/-- Python tuple(sorted((c1, c2))). -/
def sortPair (c1 c2 : Nat) : Nat × Nat := if c1 ≤ c2 then (c1, c2) else (c2, c1)

/-- set.add on a combo set represented as a duplicate-free list. -/
def comboInsert (l : List (Nat × Nat)) (c : Nat × Nat) : List (Nat × Nat) :=
  if c ∈ l then l else l ++ [c]

/-- set union (left set extended with the members of the right list). -/
def comboUnion (a b : List (Nat × Nat)) : List (Nat × Nat) := b.foldl comboInsert a

/-- ranges.py _all_pair_combos: the C(4,2)=6 suit pairs of rank r. -/
def allPairCombos (r : Nat) : List (Nat × Nat) :=
  ((List.range 4).flatMap (fun i =>
    (((List.range 4).filter (fun j => i < j)).map (fun j => sortPair (card r i) (card r j))))).foldl
    comboInsert []

/-- ranges.py _all_suited_combos: 4 same-suit combos of ranks r_hi, r_lo. -/
def allSuitedCombos (r_hi r_lo : Nat) : List (Nat × Nat) :=
  (((List.range 4).map (fun s => sortPair (card r_hi s) (card r_lo s)))).foldl comboInsert []

/-- ranges.py _all_offsuit_combos: the 12 different-suit combos. -/
def allOffsuitCombos (r_hi r_lo : Nat) : List (Nat × Nat) :=
  ((List.range 4).flatMap (fun s1 =>
    (((List.range 4).filter (fun s2 => s1 ≠ s2)).map
      (fun s2 => sortPair (card r_hi s1) (card r_lo s2))))).foldl comboInsert []

/-- ranges.py _all_both_combos: suited union offsuit, 16 combos. -/
def allBothCombos (r_hi r_lo : Nat) : List (Nat × Nat) :=
  comboUnion (allSuitedCombos r_hi r_lo) (allOffsuitCombos r_hi r_lo)

/-- Is this a rank character of the token regex, case-insensitively? -/
def isRankChar (c : Char) : Bool := RANKS.contains c.toUpper

/-- Is this an s/o suitedness qualifier, case-insensitively? -/
def isSoChar (c : Char) : Bool := c.toLower = 's' ∨ c.toLower = 'o'

/-- ranges.py _TOKEN regex, matched against a whole part (the regex is anchored
with optional surrounding blanks; parts produced by the splitter contain none):
one rank char, an optional second rank char, an optional [so], an optional +.
The three character classes are pairwise disjoint, so the greedy regex and this
sequential reading agree. -/
def tokenMatch (csIn : List Char) : Option (Char × Option Char × Option Char × Bool) :=
  match csIn with
  | [] => none
  | h :: rest0 =>
    if isRankChar h then
      let state1 : Option Char × List Char :=
        match rest0 with
        | c :: r => if isRankChar c then (some c, r) else (none, rest0)
        | [] => (none, [])
      let state2 : Option Char × List Char :=
        match state1.2 with
        | c :: r => if isSoChar c then (some c, r) else (none, state1.2)
        | [] => (none, [])
      let state3 : Bool × List Char :=
        match state2.2 with
        | c :: r => if c = '+' then (true, r) else (false, state2.2)
        | [] => (false, [])
      if state3.2 = [] then some (h, state1.1, state2.1, state3.1) else none
    else none

/-- ranges.py _expand_simple_token. -/
def expandSimpleToken (hi : Char) (lo : Option Char) (so : Option Char) (plus : Bool) :
    List (Nat × Nat) :=
  let hi_i0 := rankIdx hi
  match lo with
  | none =>
    -- pairs written with no explicit low rank: hi == lo implicit
    let start := hi_i0
    let ranks := if plus then List.range' start (13 - start) else [start]
    ranks.foldl (fun acc r => comboUnion acc (allPairCombos r)) []
  | some lc =>
    if hi.toUpper = lc.toUpper then
      -- explicit pair "TT" / "TT+"
      let start := hi_i0
      let ranks := if plus then List.range' start (13 - start) else [start]
      ranks.foldl (fun acc r => comboUnion acc (allPairCombos r)) []
    else
      -- non-pair: normalize hi > lo
      let lo_i0 := rankIdx lc
      let hi_i := if hi_i0 < lo_i0 then lo_i0 else hi_i0
      let lo_i := if hi_i0 < lo_i0 then hi_i0 else lo_i0
      let add : List (Nat × Nat) → Nat → Nat → List (Nat × Nat) := fun acc h l =>
        match so with
        | none => comboUnion acc (allBothCombos h l)
        | some c => if c.toLower = 's' then comboUnion acc (allSuitedCombos h l)
                    else comboUnion acc (allOffsuitCombos h l)
      if plus then
        -- Python: for h in range(hi_i, rank_idx(A) + 1): if h == lo_i: continue
        (((List.range' hi_i (13 - hi_i)).filter (fun h => h ≠ lo_i))).foldl
          (fun acc h => add acc h lo_i) []
      else
        add [] hi_i lo_i

/-- ranges.py _expand_dash_range, taking the raw token (split at the first
dash, as Python token.split("-", 1) does; claim-relevant tokens contain a
single dash).  The stripped halves contain no blanks because the outer splitter
already removed them. -/
def expandDashRange (tok : List Char) : Except String (List (Nat × Nat)) :=
  let left := tok.takeWhile (fun c => c ≠ '-')
  let right := (tok.dropWhile (fun c => c ≠ '-')).drop 1
  match tokenMatch left, tokenMatch right with
  | some (hi1, lo1, so1, plus1), some (hi2, lo2, so2, plus2) =>
    if plus1 ∨ plus2 then
      .error "Le suffixe + est incompatible avec un intervalle"
    else
      match lo1, lo2 with
      | some l1c, some l2c =>
        if hi1.toUpper ≠ hi2.toUpper then
          .error "Intervalle avec hi differents"
        else if (so1.map Char.toLower) ≠ (so2.map Char.toLower) then
          .error "Intervalle avec s/o incompatibles"
        else
          let l1 := rankIdx l1c
          let l2 := rankIdx l2c
          let lo_start := max l1 l2
          let lo_stop := min l1 l2
          -- for l in range(lo_start, lo_stop - 1, -1)
          let los := (List.range' lo_stop (lo_start - lo_stop + 1)).reverse
          .ok (los.foldl (fun acc l =>
            comboUnion acc (expandSimpleToken hi1 (some (RANKS.getD l '2')) so1 false)) [])
      | _, _ => .error "Intervalle non pair sans lo explicite"
  | _, _ => .error "Range invalide"

/-- A separator of re.split(r"[,\s]+", text): comma or whitespace. -/
def isSep (c : Char) : Bool := c = ',' || c.isWhitespace

/-- Split a string into maximal separator-free runs (the non-empty parts that
survive Python re.split on [,\s]+ plus the p.strip() filter). -/
def splitTokens (cs : List Char) : List (List Char) :=
  let cleaned := cs.foldr
    (fun c acc =>
      if isSep c then
        match acc with
        | [] :: _ => acc
        | _ => [] :: acc
      else
        match acc with
        | t :: ts => (c :: t) :: ts
        | [] => [[c]])
    ([] : List (List Char))
  cleaned.filter (fun t => t ≠ [])

/-- ranges.py parse_range: raise on an all-blank spec, then union the
expansion of every comma/blank-separated token, dash tokens going through
_expand_dash_range. -/
def parseRange (text : String) : Except String (List (Nat × Nat)) :=
  if text.toList.all (fun c => c.isWhitespace) then
    .error "Range vide"
  else
    (splitTokens text.toList).foldlM
      (fun acc p =>
        if p.contains '-' then
          (expandDashRange p).map (fun e => comboUnion acc e)
        else
          match tokenMatch p with
          | none => .error "Token de range invalide"
          | some (hi, lo, so, plus) => .ok (comboUnion acc (expandSimpleToken hi lo so plus)))
      []

/-- Number of combos a range specification expands to (none when the parse
raises). -/
def rangeCount (text : String) : Option Nat :=
  (parseRange text).toOption.map List.length

/-- ranges.py filter_dead_combos: drop combos containing a dead card (or a
degenerate equal pair), re-canonicalizing survivors as (min, max). -/
def filterDeadCombos (combos : List (Nat × Nat)) (dead : List Nat) : List (Nat × Nat) :=
  (combos.filter (fun c => ¬ c.1 ∈ dead ∧ ¬ c.2 ∈ dead ∧ c.1 ≠ c.2)).map
    (fun c => (min c.1 c.2, max c.1 c.2))

/-! ### equity.py : equity estimation -/

/-- One side (hero or villain) of the result dict of equity.py: equity,
stdev, ci95 = [ciLo, ciHi], and n.  Floats that the code only ever fills with
exact values (p, 1-p, clamps of p +- 1.96 stdev) are modelled as rationals;
the one genuinely irrational operation, math.sqrt, is abstracted in Env. -/
structure SideResult where
  equity : ℚ
  stdev : ℚ
  ciLo : ℚ
  ciHi : ℚ
  n : Int
deriving DecidableEq, Repr

/-- The result dict of equity_hu / equity_vs_range (the meta echo of the raw
input strings carries no computational content and is omitted). -/
structure EquityResult where
  hero : SideResult
  villain : SideResult
deriving DecidableEq, Repr

/-- The external collaborators used by equity.py that live outside the
repository: random.Random(seed) (a deterministic generator: an initial state
computed from the seed, and state-threading sample/choice draws) and
math.sqrt.  Modelling them as explicit functions makes every estimator run a
pure function of the inputs, the seed, and this fixed environment. -/
structure Env (σ : Type) where
  rngInit : Int → σ
  rngSample : σ → List Nat → Nat → List Nat × σ
  rngChoice : σ → List (Nat × Nat) → (Nat × Nat) × σ
  sqrtQ : ℚ → ℚ

/-- cards.py deck_without: validate bounds and duplicates, then the sorted
52-card deck minus the known cards (sorted set difference = filtered range). -/
def deckWithout (known : List Nat) : Except String (List Nat) :=
  if ¬ known.all (fun c => c ≤ 51) then
    .error "Index carte hors bornes dans known"
  else if ¬ known.Nodup then
    .error "Doublons détectés dans les cartes fournies"
  else
    let remaining := (List.range 52).filter (fun c => ¬ c ∈ known)
    if remaining.length ≠ 52 - known.length then
      .error "Incohérence de deck après retrait des cartes connues"
    else
      .ok remaining

/-- The Monte-Carlo loop of equity_hu: run the given number of trials, each
drawing the missing board cards from the unseen deck, and accumulate
(wins, ties) together with the final generator state.  The 7-card scorer
assertion is propagated as an error (unreachable when the draw has the
requested length). -/
def mcTrialsHu {σ : Type} (env : Env σ) (h1 h2 v1 v2 : Nat)
    (boardCards deck : List Nat) (need : Nat) :
    Nat → σ → Except String (Nat × Nat × σ)
  | 0, st => .ok (0, 0, st)
  | n + 1, st =>
    let drawRes := env.rngSample st deck need
    let full_board := boardCards ++ drawRes.1
    match evaluate7 (h1 :: h2 :: full_board), evaluate7 (v1 :: v2 :: full_board) with
    | some s_hero, some s_vil =>
      match mcTrialsHu env h1 h2 v1 v2 boardCards deck need n drawRes.2 with
      | .ok (w, t, stFin) =>
        .ok ((if scoreGtB s_hero s_vil then 1 else 0) + w,
             (if s_hero = s_vil then 1 else 0) + t, stFin)
      | .error e => .error e
    | _, _ => .error "evaluate7 attend exactement 7 cartes"

/-- equity.py equity_hu, after the card-parsing collaborator: hero and villain
hole cards, board cards, Monte-Carlo iteration count and seed.  The complete
board case is deterministic; otherwise the board is completed by sampling.
Python computes p = (wins + 0.5 * ties) / iters, which raises ZeroDivisionError
when iters == 0; that raise is modelled as an error after the (empty) loop. -/
def equityHu {σ : Type} (env : Env σ) (h1 h2 v1 v2 : Nat) (boardCards : List Nat)
    (iters : Int) (seed : Int) : Except String EquityResult :=
  let known := [h1, h2, v1, v2] ++ boardCards
  match deckWithout known with
  | .error e => .error e
  | .ok deck =>
    if boardCards.length = 5 then
      match evaluate7 (h1 :: h2 :: boardCards), evaluate7 (v1 :: v2 :: boardCards) with
      | some s_hero, some s_vil =>
        let p : ℚ := if scoreGtB s_hero s_vil then 1 else if scoreGtB s_vil s_hero then 0 else 1/2
        .ok { hero := ⟨p, 0, p, p, 1⟩,
              villain := ⟨1 - p, 0, 1 - p, 1 - p, 1⟩ }
      | _, _ => .error "evaluate7 attend exactement 7 cartes"
    else
      let need := 5 - boardCards.length
      match mcTrialsHu env h1 h2 v1 v2 boardCards deck need iters.toNat (env.rngInit seed) with
      | .error e => .error e
      | .ok (wins, ties, _) =>
        if iters = 0 then .error "division by zero" else
        let p : ℚ := ((wins : ℚ) + (1/2) * (ties : ℚ)) / (iters : ℚ)
        let stdev := env.sqrtQ (max (p * (1 - p) / (iters : ℚ)) 0)
        let z : ℚ := 196/100
        let ci_low := max (p - z * stdev) 0
        let ci_high := min (p + z * stdev) 1
        .ok { hero := ⟨p, stdev, ci_low, ci_high, iters⟩,
              villain := ⟨1 - p, stdev, 1 - ci_high, 1 - ci_low, iters⟩ }

/-- The complete-board enumeration loop of equity_vs_range: hero against every
available combo once. -/
def enumRangeShowdown (h1 h2 : Nat) (boardCards : List Nat) :
    List (Nat × Nat) → Except String (Nat × Nat)
  | [] => .ok (0, 0)
  | (v1, v2) :: rest =>
    match evaluate7 (h1 :: h2 :: boardCards), evaluate7 (v1 :: v2 :: boardCards) with
    | some s_h, some s_v =>
      match enumRangeShowdown h1 h2 boardCards rest with
      | .ok (w, t) =>
        .ok ((if scoreGtB s_h s_v then 1 else 0) + w, (if s_h = s_v then 1 else 0) + t)
      | .error e => .error e
    | _, _ => .error "evaluate7 attend exactement 7 cartes"

/-- The Monte-Carlo loop of equity_vs_range: each trial draws an available
villain combo uniformly, removes its cards from the deck, draws the missing
board cards, and tallies. -/
def mcTrialsRange {σ : Type} (env : Env σ) (h1 h2 : Nat)
    (boardCards deck0 : List Nat) (avail : List (Nat × Nat)) (need : Nat) :
    Nat → σ → Except String (Nat × Nat × σ)
  | 0, st => .ok (0, 0, st)
  | n + 1, st =>
    let choiceRes := env.rngChoice st avail
    let v1 := choiceRes.1.1
    let v2 := choiceRes.1.2
    let deck := deck0.filter (fun c => c ≠ v1 ∧ c ≠ v2)
    let drawRes := env.rngSample choiceRes.2 deck need
    let full_board := boardCards ++ drawRes.1
    match evaluate7 (h1 :: h2 :: full_board), evaluate7 (v1 :: v2 :: full_board) with
    | some s_h, some s_v =>
      match mcTrialsRange env h1 h2 boardCards deck0 avail need n drawRes.2 with
      | .ok (w, t, stFin) =>
        .ok ((if scoreGtB s_h s_v then 1 else 0) + w, (if s_h = s_v then 1 else 0) + t, stFin)
      | .error e => .error e
    | _, _ => .error "evaluate7 attend exactement 7 cartes"

/-- equity.py equity_vs_range, after the card-parsing collaborator: hero hole
cards, the textual villain range, board cards, iteration count and seed.  The
range is expanded and dead-filtered once; an empty available list is rejected
before any deck computation, scoring, or sampling. -/
def equityVsRange {σ : Type} (env : Env σ) (h1 h2 : Nat) (villainRange : String)
    (boardCards : List Nat) (iters : Int) (seed : Int) : Except String EquityResult :=
  match parseRange villainRange with
  | .error e => .error e
  | .ok raw =>
    let avail := filterDeadCombos raw (h1 :: h2 :: boardCards)
    if avail = [] then
      .error "Range vide après retrait des cartes mortes (héros/board)."
    else
      match deckWithout ([h1, h2] ++ boardCards) with
      | .error e => .error e
      | .ok deck0 =>
        let need := 5 - boardCards.length
        if need = 0 then
          match enumRangeShowdown h1 h2 boardCards avail with
          | .error e => .error e
          | .ok (wins, ties) =>
            let p : ℚ := ((wins : ℚ) + (1/2) * (ties : ℚ)) / (avail.length : ℚ)
            .ok { hero := ⟨p, 0, p, p, avail.length⟩,
                  villain := ⟨1 - p, 0, 1 - p, 1 - p, avail.length⟩ }
        else
          match mcTrialsRange env h1 h2 boardCards deck0 avail need iters.toNat
              (env.rngInit seed) with
          | .error e => .error e
          | .ok (wins, ties, _) =>
            if iters = 0 then .error "division by zero" else
            let p : ℚ := ((wins : ℚ) + (1/2) * (ties : ℚ)) / (iters : ℚ)
            let stdev := env.sqrtQ (max (p * (1 - p) / (iters : ℚ)) 0)
            let z : ℚ := 196/100
            let lo := max (p - z * stdev) 0
            let hi := min (p + z * stdev) 1
            .ok { hero := ⟨p, stdev, lo, hi, iters⟩,
                  villain := ⟨1 - p, stdev, 1 - hi, 1 - lo, iters⟩ }

/-- A concrete environment instance for witnesses: a trivial deterministic
generator (draws are the deck head, choices the first combo) and a zero
square root. -/
def env0 : Env Int :=
  { rngInit := fun s => s
    rngSample := fun st deck k => (deck.take k, st + 1)
    rngChoice := fun st l => (l.headD (0, 0), st + 1)
    sqrtQ := fun _ => 0 }

/-! ### The score order: Python tuple comparison is a strict total order -/

theorem listGtB_irrefl (l : List Nat) : listGtB l l = false := by
  induction l with
  | nil => rfl
  | cons a as ih => simp [listGtB, ih]

theorem listGtB_trans {a b c : List Nat} (h1 : listGtB a b = true)
    (h2 : listGtB b c = true) : listGtB a c = true := by
  induction a generalizing b c with
  | nil => simp [listGtB] at h1
  | cons x xs ih =>
    cases b with
    | nil => simp [listGtB] at h2
    | cons y ys =>
      cases c with
      | nil => simp [listGtB]
      | cons z zs =>
        simp only [listGtB] at h1 h2 ⊢
        rcases Nat.lt_trichotomy y x with hyx | hyx | hyx
        · rcases Nat.lt_trichotomy z y with hzy | hzy | hzy
          · rw [if_pos (by omega)]
          · rw [if_pos (by omega)]
          · rw [if_neg (by omega), if_pos hzy] at h2
            exact absurd h2 (by simp)
        · subst hyx
          rw [if_neg (by omega), if_neg (by omega)] at h1
          rcases Nat.lt_trichotomy z y with hzy | hzy | hzy
          · rw [if_pos hzy]
          · subst hzy
            rw [if_neg (by omega), if_neg (by omega)] at h2 ⊢
            exact ih h1 h2
          · rw [if_neg (by omega), if_pos hzy] at h2
            exact absurd h2 (by simp)
        · rw [if_neg (by omega), if_pos hyx] at h1
          exact absurd h1 (by simp)

theorem listGtB_conn {a b : List Nat} (h1 : listGtB a b = false)
    (h2 : listGtB b a = false) : a = b := by
  induction a generalizing b with
  | nil =>
    cases b with
    | nil => rfl
    | cons y ys => simp [listGtB] at h2
  | cons x xs ih =>
    cases b with
    | nil => simp [listGtB] at h1
    | cons y ys =>
      simp only [listGtB] at h1 h2
      rcases Nat.lt_trichotomy y x with hyx | hyx | hyx
      · rw [if_pos hyx] at h1
        exact absurd h1 (by simp)
      · subst hyx
        rw [if_neg (by omega), if_neg (by omega)] at h1 h2
        exact congrArg (y :: ·) (ih h1 h2)
      · rw [if_pos hyx] at h2
        exact absurd h2 (by simp)

theorem scoreGtB_irrefl (s : Score) : scoreGtB s s = false := by
  simp [scoreGtB, listGtB_irrefl]

theorem scoreGtB_trans {a b c : Score} (h1 : scoreGtB a b = true)
    (h2 : scoreGtB b c = true) : scoreGtB a c = true := by
  simp only [scoreGtB, Bool.or_eq_true, Bool.and_eq_true, decide_eq_true_eq] at h1 h2 ⊢
  rcases h1 with h1 | ⟨h1e, h1l⟩ <;> rcases h2 with h2 | ⟨h2e, h2l⟩
  · exact Or.inl (h2.trans h1)
  · exact Or.inl (h2e ▸ h1)
  · exact Or.inl (h1e ▸ h2)
  · exact Or.inr ⟨h1e.trans h2e, listGtB_trans h1l h2l⟩

theorem scoreGtB_conn {a b : Score} (h1 : scoreGtB a b = false)
    (h2 : scoreGtB b a = false) : a = b := by
  simp only [scoreGtB, Bool.or_eq_false_iff, Bool.and_eq_false_iff,
    decide_eq_false_iff_not] at h1 h2
  obtain ⟨h1a, h1b⟩ := h1
  obtain ⟨h2a, h2b⟩ := h2
  have he : a.1 = b.1 := by omega
  have hl : a.2 = b.2 := by
    apply listGtB_conn
    · rcases h1b with h | h
      · exact absurd he h
      · exact h
    · rcases h2b with h | h
      · exact absurd he.symm h
      · exact h
  exact Prod.ext he hl

theorem scoreGtB_asymm {a b : Score} (h : scoreGtB a b = true) : scoreGtB b a = false := by
  rcases hb : scoreGtB b a with _ | _
  · rfl
  · have := scoreGtB_trans h hb
    rw [scoreGtB_irrefl] at this
    exact absurd this (by simp)

theorem scoreGtB_not_gt_trans {a b m : Score} (h1 : scoreGtB a b = false)
    (h2 : scoreGtB b m = false) : scoreGtB a m = false := by
  rcases ham : scoreGtB a m with _ | _
  · rfl
  · exfalso
    rcases hba : scoreGtB b a with _ | _
    · have hab := scoreGtB_conn h1 hba
      rw [hab] at ham
      rw [ham] at h2
      exact absurd h2 (by simp)
    · have := scoreGtB_trans hba ham
      rw [this] at h2
      exact absurd h2 (by simp)

theorem pickBest_eq_or (b s : Score) : pickBest b s = s ∨ pickBest b s = b := by
  unfold pickBest
  split_ifs
  · exact Or.inl rfl
  · exact Or.inr rfl

theorem left_le_pickBest (b s : Score) : scoreGtB b (pickBest b s) = false := by
  unfold pickBest
  split_ifs with h
  · exact scoreGtB_asymm h
  · exact scoreGtB_irrefl b

theorem right_le_pickBest (b s : Score) : scoreGtB s (pickBest b s) = false := by
  unfold pickBest
  split_ifs with h
  · exact scoreGtB_irrefl s
  · simpa using h

/-- The running maximum over a list of scores is an element of the list (or
the seed) and dominates the seed and every element of the list. -/
theorem foldl_pickBest_spec (init : Score) (l : List Score) :
    (l.foldl pickBest init = init ∨ l.foldl pickBest init ∈ l) ∧
    scoreGtB init (l.foldl pickBest init) = false ∧
    ∀ s ∈ l, scoreGtB s (l.foldl pickBest init) = false := by
  induction l generalizing init with
  | nil => simpa using scoreGtB_irrefl init
  | cons x xs ih =>
    obtain ⟨hmem, hinit, hall⟩ := ih (pickBest init x)
    rw [List.foldl_cons]
    refine ⟨?_, scoreGtB_not_gt_trans (left_le_pickBest init x) hinit, ?_⟩
    · rcases hmem with h | h
      · rw [h]
        rcases pickBest_eq_or init x with h2 | h2 <;> rw [h2]
        · exact Or.inr (List.mem_cons_self x xs)
        · exact Or.inl rfl
      · exact Or.inr (List.mem_cons_of_mem x h)
    · intro s hs
      rcases List.mem_cons.1 hs with rfl | hs
      · exact scoreGtB_not_gt_trans (right_le_pickBest init s) hinit
      · exact hall s hs

/-- Every genuine 5-card score has category at least 0, hence beats the
seed (-1, ()) of the running maximum. -/
theorem evaluate5_cat_nonneg (l : List Nat) : 0 ≤ (evaluate5 l).1 := by
  unfold evaluate5 evaluate5Core
  dsimp only
  split_ifs <;> norm_num

/-- The 7-card running maximum is attained by some scored 5-card subset and
dominates the scores of all of them. -/
theorem bestOf_spec (cards : List Nat) (h7 : cards.length = 7) :
    bestOf cards ∈ (List.sublistsLen 5 cards).map evaluate5 ∧
    ∀ s ∈ (List.sublistsLen 5 cards).map evaluate5, scoreGtB s (bestOf cards) = false := by
  have hfold : bestOf cards =
      ((List.sublistsLen 5 cards).map evaluate5).foldl pickBest (-1, []) := by
    unfold bestOf
    rw [List.foldl_map]
  obtain ⟨hmem, _, hall⟩ := foldl_pickBest_spec (-1, []) ((List.sublistsLen 5 cards).map evaluate5)
  rw [← hfold] at hmem hall
  refine ⟨?_, hall⟩
  rcases hmem with hmem | hmem
  · exfalso
    have hlen : (List.sublistsLen 5 cards).length = 21 := by
      rw [List.length_sublistsLen, h7]
      rfl
    have hne : List.sublistsLen 5 cards ≠ [] := by
      intro h
      rw [h] at hlen
      simp at hlen
    obtain ⟨S, hS⟩ := List.exists_mem_of_ne_nil _ hne
    have := hall (evaluate5 S) (List.mem_map_of_mem evaluate5 hS)
    rw [hmem] at this
    have hpos := evaluate5_cat_nonneg S
    simp only [scoreGtB, Bool.or_eq_false_iff, decide_eq_false_iff_not] at this
    exact this.1 (by omega)
  · exact hmem

/-- C1: for every sequence of exactly 7 distinct cards in [0,51], the 7-card
scorer returns exactly the maximum, under the lexicographic (category,
tiebreak) order scoreGtB, of the 5-card score over all C(7,5) = 21 five-card
subsets of the input: the returned score is the score of one of the 21
subsets and no subset scores strictly greater. -/
theorem evaluate7_eq_max_of_subsets (cards7 : List Nat) (h7 : cards7.length = 7)
    (_hnd : cards7.Nodup) (_hrange : ∀ c ∈ cards7, c ≤ 51) :
    evaluate7 cards7 = some (bestOf cards7) ∧
    (List.sublistsLen 5 cards7).length = 21 ∧
    bestOf cards7 ∈ (List.sublistsLen 5 cards7).map evaluate5 ∧
    ∀ s ∈ (List.sublistsLen 5 cards7).map evaluate5, scoreGtB s (bestOf cards7) = false := by
  obtain ⟨hmem, hall⟩ := bestOf_spec cards7 h7
  refine ⟨by simp [evaluate7, h7], ?_, hmem, hall⟩
  rw [List.length_sublistsLen, h7]
  rfl

set_option maxRecDepth 40000 in
/-- Witness for C1 at the concrete 7-card hand [0,1,2,3,4,5,6]. -/
theorem evaluate7_eq_max_of_subsets_witness :
    evaluate7 [0, 1, 2, 3, 4, 5, 6] = some (bestOf [0, 1, 2, 3, 4, 5, 6]) ∧
    (List.sublistsLen 5 [0, 1, 2, 3, 4, 5, 6]).length = 21 ∧
    bestOf [0, 1, 2, 3, 4, 5, 6] ∈ (List.sublistsLen 5 [0, 1, 2, 3, 4, 5, 6]).map evaluate5 ∧
    ∀ s ∈ (List.sublistsLen 5 [0, 1, 2, 3, 4, 5, 6]).map evaluate5,
      scoreGtB s (bestOf [0, 1, 2, 3, 4, 5, 6]) = false :=
  evaluate7_eq_max_of_subsets [0, 1, 2, 3, 4, 5, 6] (by decide) (by decide) (by decide)

/-- The 5-card score only depends on the multiset of cards: the ranks are
sorted before use and the flush flag is a function of the set of suits. -/
theorem evaluate5_perm {l l2 : List Nat} (h : l.Perm l2) : evaluate5 l = evaluate5 l2 := by
  unfold evaluate5 sortDesc
  have h1 : List.insertionSort rankGe (l.map rank) = List.insertionSort rankGe (l2.map rank) :=
    List.eq_of_perm_of_sorted
      ((List.perm_insertionSort _ _).trans ((h.map rank).trans
        (List.perm_insertionSort _ _).symm))
      (List.sorted_insertionSort rankGe (l.map rank))
      (List.sorted_insertionSort rankGe (l2.map rank))
  have h2 : (l.map suit).dedup.length = (l2.map suit).dedup.length :=
    ((h.map suit).dedup).length_eq
  rw [h1, h2]

/-- The running maximum of one ordering of a 7-card hand does not exceed that
of any reordering of it. -/
theorem bestOf_perm_le {cs cs2 : List Nat} (h : cs.Perm cs2) (h7 : cs.length = 7) :
    scoreGtB (bestOf cs) (bestOf cs2) = false := by
  have h7b : cs2.length = 7 := h.length_eq ▸ h7
  obtain ⟨hmem, _⟩ := bestOf_spec cs h7
  obtain ⟨_, hall2⟩ := bestOf_spec cs2 h7b
  obtain ⟨S, hS, hSeq⟩ := List.mem_map.1 hmem
  obtain ⟨hSsub, hSlen⟩ := List.mem_sublistsLen.1 hS
  obtain ⟨S2, hS2perm, hS2sub⟩ := (hSsub.subperm.trans h.subperm : S.Subperm cs2)
  have hS2mem : S2 ∈ List.sublistsLen 5 cs2 :=
    List.mem_sublistsLen.2 ⟨hS2sub, hS2perm.length_eq.trans hSlen⟩
  have heq : evaluate5 S2 = bestOf cs := (evaluate5_perm hS2perm).trans hSeq
  have := hall2 (evaluate5 S2) (List.mem_map_of_mem evaluate5 hS2mem)
  rwa [heq] at this

/-- C10: the 7-card score is invariant under reordering of its input — the
5-card scorer sorts ranks internally and the 7-card scorer takes an
order-independent maximum over all subsets. -/
theorem evaluate7_perm_invariant (cs cs2 : List Nat) (h : cs.Perm cs2) :
    evaluate7 cs = evaluate7 cs2 := by
  have hlen := h.length_eq
  unfold evaluate7
  by_cases h7 : cs.length = 7
  · rw [if_pos h7, if_pos (hlen ▸ h7)]
    exact congrArg some
      (scoreGtB_conn (bestOf_perm_le h h7) (bestOf_perm_le h.symm (hlen ▸ h7)))
  · rw [if_neg h7, if_neg (hlen ▸ h7)]

set_option maxRecDepth 40000 in
/-- Witness for C10 at a concrete reordering. -/
theorem evaluate7_perm_invariant_witness :
    evaluate7 [12, 16, 28, 40, 0, 24, 36] = evaluate7 [36, 24, 0, 40, 28, 16, 12] :=
  evaluate7_perm_invariant [12, 16, 28, 40, 0, 24, 36] [36, 24, 0, 40, 28, 16, 12] (by decide)

/-! ### C2: the ace-low wheel -/

/-- A successful sliding window contains the five consecutive ranks below and
including its high rank, and that high rank is at least 4. -/
theorem straightWindows_mem : ∀ (l : List Nat) (hh : Nat), straightWindows l = some hh →
    4 ≤ hh ∧ hh ∈ l ∧ hh - 1 ∈ l ∧ hh - 2 ∈ l ∧ hh - 3 ∈ l ∧ hh - 4 ∈ l
  | a :: b :: c :: d :: e :: rest, hh, hs => by
    rw [straightWindows] at hs
    split_ifs at hs with hcond
    · obtain ⟨h1, h2, h3, h4, h5⟩ := hcond
      obtain rfl : a = hh := by injection hs
      have hb : b = a - 1 := by omega
      have hc : c = a - 2 := by omega
      have hd : d = a - 3 := by omega
      have he : e = a - 4 := by omega
      refine ⟨by omega, by simp, ?_, ?_, ?_, ?_⟩
      · rw [← hb]; simp
      · rw [← hc]; simp
      · rw [← hd]; simp
      · rw [← he]; simp
    · obtain ⟨hb, m1, m2, m3, m4, m5⟩ := straightWindows_mem (b :: c :: d :: e :: rest) hh hs
      exact ⟨hb, List.mem_cons_of_mem a m1, List.mem_cons_of_mem a m2,
        List.mem_cons_of_mem a m3, List.mem_cons_of_mem a m4, List.mem_cons_of_mem a m5⟩
  | [], _, hs => by simp [straightWindows] at hs
  | [_], _, hs => by simp [straightWindows] at hs
  | [_, _], _, hs => by simp [straightWindows] at hs
  | [_, _, _], _, hs => by simp [straightWindows] at hs
  | [_, _, _, _], _, hs => by simp [straightWindows] at hs

/-- Over a rank universe {0,1,2,3,12,r1,r2} with neither extra rank equal
to 4 (the six), the only straight the detector can find is the wheel with
high rank 3. -/
theorem isStraight_only_wheel {l : List Nat} {r1 r2 : Nat}
    (hallow : ∀ x ∈ l, x = 0 ∨ x = 1 ∨ x = 2 ∨ x = 3 ∨ x = 12 ∨ x = r1 ∨ x = r2)
    (h4a : r1 ≠ 4) (h4b : r2 ≠ 4) :
    ∀ hh, isStraight l = some hh → hh = 3 := by
  intro hh hs
  unfold isStraight at hs
  cases hw : straightWindows l with
  | some g =>
    exfalso
    rw [hw] at hs
    obtain rfl : g = hh := by injection hs
    obtain ⟨hb, m1, m2, m3, m4, m5⟩ := straightWindows_mem l g hw
    have a1 := hallow _ m1
    have a2 := hallow _ m2
    have a3 := hallow _ m3
    have a4 := hallow _ m4
    have a5 := hallow _ m5
    omega
  | none =>
    rw [hw] at hs
    split_ifs at hs
    injection hs with hs
    exact hs.symm

/-- Every group is the histogram entry of its rank. -/
theorem groupsOf_mem {rs : List Nat} {g : Nat × Nat} (hg : g ∈ groupsOf rs) :
    g.1 = rs.count g.2 ∧ g.2 ∈ rs.dedup := by
  unfold groupsOf at hg
  rw [List.mem_insertionSort] at hg
  obtain ⟨r, hr, rfl⟩ := List.mem_map.1 hg
  exact ⟨rfl, hr⟩

/-- The ranks of the groups are pairwise distinct. -/
theorem groupsOf_snd_nodup (rs : List Nat) : ((groupsOf rs).map Prod.snd).Nodup := by
  have hperm : ((groupsOf rs).map Prod.snd).Perm rs.dedup := by
    unfold groupsOf
    have h1 := (List.perm_insertionSort pairGe
      (rs.dedup.map (fun r => (rs.count r, r)))).map Prod.snd
    rw [List.map_map] at h1
    simpa [Function.comp_def] using h1
  exact hperm.nodup_iff.2 (List.nodup_dedup rs)

/-- Main category bound for C2: on a rank list drawn from the universe
{0,1,2,3,12,r1,r2} with neither extra rank equal to 4, in which the two extra
ranks are the only source of repetition, a non-flush 5-card evaluation never
scores above the wheel straight (4, [3]). -/
theorem evaluate5Core_le_wheel (rs : List Nat) (r1 r2 : Nat)
    (hallow : ∀ x ∈ rs, x = 0 ∨ x = 1 ∨ x = 2 ∨ x = 3 ∨ x = 12 ∨ x = r1 ∨ x = r2)
    (h4a : r1 ≠ 4) (h4b : r2 ≠ 4)
    (hcount : ∀ p, rs.count p ≤ (if p = r1 then 1 else 0) + (if p = r2 then 1 else 0) + 1) :
    scoreGtB (evaluate5Core rs false) (4, [3]) = false := by
  have hg0le : ∀ g ∈ groupsOf rs, g.1 ≤ 3 := by
    intro g hg
    obtain ⟨hc, _⟩ := groupsOf_mem hg
    have := hcount g.2
    split_ifs at this <;> omega
  have hstr3 : ∀ hh, isStraight rs.dedup = some hh → hh = 3 := by
    refine isStraight_only_wheel ?_ h4a h4b
    intro x hx
    exact hallow x (List.mem_dedup.1 hx)
  simp only [evaluate5Core]
  split_ifs with h1 h2 h3 h4 h5 h6 h7 h8
  · simp at h1
  · exfalso
    cases hgl : groupsOf rs with
    | nil => rw [hgl] at h2; simp at h2
    | cons g gs =>
      rw [hgl] at h2
      simp only [List.headD_cons] at h2
      have := hg0le g (hgl ▸ List.mem_cons_self g gs)
      omega
  · exfalso
    obtain ⟨h3a, h3b, h3c⟩ := h3
    cases hgl : groupsOf rs with
    | nil => rw [hgl] at h3b; simp at h3b
    | cons g0 gs0 =>
      cases hgs : gs0 with
      | nil => rw [hgl, hgs] at h3b; simp at h3b
      | cons g1 gs1 =>
        rw [hgl, hgs] at h3a h3c
        simp only [List.headD_cons, List.drop_succ_cons, List.drop_zero] at h3a h3c
        have hne : g0.2 ≠ g1.2 := by
          have hnd := groupsOf_snd_nodup rs
          rw [hgl, hgs] at hnd
          simp only [List.map_cons, List.nodup_cons, List.mem_cons] at hnd
          exact fun h => hnd.1 (Or.inl h)
        have hc0 : g0.1 = rs.count g0.2 :=
          (groupsOf_mem (hgl ▸ List.mem_cons_self g0 gs0)).1
        have hc1 : g1.1 = rs.count g1.2 := by
          refine (groupsOf_mem (g := g1) ?_).1
          rw [hgl, hgs]
          exact List.mem_cons_of_mem g0 (List.mem_cons_self g1 gs1)
        have hh0 := hcount g0.2
        have hh1 := hcount g1.2
        split_ifs at hh0 hh1 <;> omega
  · simp at h4
  · have hhh : isStraight rs.dedup = some 3 := by
      obtain ⟨hh, hsome⟩ := Option.isSome_iff_exists.1 h5
      rw [hsome, hstr3 hh hsome]
    rw [hhh]
    simp [scoreGtB, listGtB_irrefl]
  · simp [scoreGtB]
  · simp [scoreGtB]
  · simp [scoreGtB]
  · simp [scoreGtB]

/-- A 5-card hand whose rank multiset is exactly {A,5,4,3,2} evaluates to the
wheel straight (flush) with high rank 3 — never with the ace value 12. -/
theorem evaluate5_wheel (cards5 : List Nat) (h : (cards5.map rank).Perm [12, 3, 2, 1, 0]) :
    evaluate5 cards5 =
      (if (cards5.map suit).dedup.length = 1 then ((8 : Int), [3]) else ((4 : Int), [3])) := by
  unfold evaluate5
  have hs : sortDesc (cards5.map rank) = [12, 3, 2, 1, 0] :=
    List.eq_of_perm_of_sorted ((List.perm_insertionSort rankGe _).trans h)
      (List.sorted_insertionSort rankGe (cards5.map rank))
      (show List.Sorted rankGe [12, 3, 2, 1, 0] by decide)
  rw [hs]
  by_cases hf : (cards5.map suit).dedup.length = 1
  · rw [if_pos hf, decide_eq_true hf]
    decide
  · rw [if_neg hf, decide_eq_false hf]
    decide

/-- A 5-card hand whose rank multiset is exactly {6,5,4,3,2} evaluates to the
six-high straight (flush). -/
theorem evaluate5_six (cards5 : List Nat) (h : (cards5.map rank).Perm [4, 3, 2, 1, 0]) :
    evaluate5 cards5 =
      (if (cards5.map suit).dedup.length = 1 then ((8 : Int), [4]) else ((4 : Int), [4])) := by
  unfold evaluate5
  have hs : sortDesc (cards5.map rank) = [4, 3, 2, 1, 0] :=
    List.eq_of_perm_of_sorted ((List.perm_insertionSort rankGe _).trans h)
      (List.sorted_insertionSort rankGe (cards5.map rank))
      (show List.Sorted rankGe [4, 3, 2, 1, 0] by decide)
  rw [hs]
  by_cases hf : (cards5.map suit).dedup.length = 1
  · rw [if_pos hf, decide_eq_true hf]
    decide
  · rw [if_neg hf, decide_eq_false hf]
    decide

/-- If no suit is held by five of the cards of a hand, then no 5-card sublist
of it is a flush. -/
theorem no_flush_of_suit_bound {hand : List Nat}
    (hsuit : ∀ s ∈ hand.map suit, (hand.filter (fun c => decide (suit c = s))).length ≤ 4)
    {S : List Nat} (hSsub : S.Sublist hand) (hSlen : S.length = 5) :
    ¬ (S.map suit).dedup.length = 1 := by
  intro h1
  obtain ⟨s, hds⟩ := List.length_eq_one.1 h1
  have hmemS : ∀ x ∈ S.map suit, x = s := by
    intro x hx
    have hxd : x ∈ (S.map suit).dedup := List.mem_dedup.2 hx
    rw [hds] at hxd
    simpa using hxd
  have hSne : S ≠ [] := by
    intro hS0
    rw [hS0] at hSlen
    simp at hSlen
  obtain ⟨c0, hc0⟩ := List.exists_mem_of_ne_nil S hSne
  have hs_mem : s ∈ hand.map suit := by
    have hcs : suit c0 = s := hmemS _ (List.mem_map_of_mem suit hc0)
    exact hcs ▸ List.mem_map_of_mem suit (hSsub.subset hc0)
  have hfix : S.filter (fun c => decide (suit c = s)) = S := by
    apply List.filter_eq_self.2
    intro c hc
    exact decide_eq_true (hmemS _ (List.mem_map_of_mem suit hc))
  have hsubf := hSsub.filter (fun c => decide (suit c = s))
  rw [hfix] at hsubf
  have hle := hsubf.length_le
  have := hsuit s hs_mem
  omega

/-- A 7-card hand made of a wheel (rank multiset {A,5,4,3,2}) plus two extra
cards that are not sixes, with no five cards sharing a suit, has running
maximum exactly the wheel straight (4, [3]). -/
theorem bestOf_wheel_eq (w : List Nat) (x1 x2 : Nat)
    (hw : (w.map rank).Perm [12, 3, 2, 1, 0])
    (hx1 : rank x1 ≠ 4) (hx2 : rank x2 ≠ 4)
    (hsuit : ∀ s ∈ (w ++ [x1, x2]).map suit,
      ((w ++ [x1, x2]).filter (fun c => decide (suit c = s))).length ≤ 4) :
    bestOf (w ++ [x1, x2]) = (4, [3]) := by
  have hlenw : w.length = 5 := by simpa using hw.length_eq
  have hlen7 : (w ++ [x1, x2]).length = 7 := by simp [hlenw]
  obtain ⟨hmem, hall⟩ := bestOf_spec _ hlen7
  have hub : ∀ s ∈ (List.sublistsLen 5 (w ++ [x1, x2])).map evaluate5,
      scoreGtB s (4, [3]) = false := by
    intro s hsm
    obtain ⟨S, hS, rfl⟩ := List.mem_map.1 hsm
    obtain ⟨hSsub, hSlen⟩ := List.mem_sublistsLen.1 hS
    have hflush := no_flush_of_suit_bound hsuit hSsub hSlen
    unfold evaluate5
    rw [decide_eq_false hflush]
    refine evaluate5Core_le_wheel _ (rank x1) (rank x2) ?_ hx1 hx2 ?_
    · intro x hx
      have hxm : x ∈ S.map rank := by
        unfold sortDesc at hx
        rw [List.mem_insertionSort] at hx
        exact hx
      obtain ⟨c, hc, rfl⟩ := List.mem_map.1 hxm
      rcases List.mem_append.1 (hSsub.subset hc) with hcw | hcx
      · have hrm : rank c ∈ [12, 3, 2, 1, 0] := hw.subset (List.mem_map_of_mem rank hcw)
        simp at hrm
        omega
      · simp at hcx
        rcases hcx with rfl | rfl
        · right; right; right; right; right; left; rfl
        · right; right; right; right; right; right; rfl
    · intro p
      have hcS : (sortDesc (S.map rank)).count p = (S.map rank).count p :=
        (List.perm_insertionSort rankGe _).count_eq p
      have hcle : (S.map rank).count p ≤ ((w ++ [x1, x2]).map rank).count p :=
        (hSsub.map rank).count_le p
      have hsplit : ((w ++ [x1, x2]).map rank).count p =
          (w.map rank).count p + List.count p [rank x1, rank x2] := by
        rw [List.map_append]
        exact List.count_append p _ _
      have hwcount : (w.map rank).count p ≤ 1 := by
        rw [hw.count_eq p]
        exact List.nodup_iff_count_le_one.1 (by decide) p
      have hxc : List.count p [rank x1, rank x2] =
          (if p = rank x1 then 1 else 0) + (if p = rank x2 then 1 else 0) := by
        by_cases e1 : p = rank x1 <;> by_cases e2 : p = rank x2 <;>
          simp [List.count_cons, e1, e2] <;> split_ifs <;> omega
      rw [hcS]
      omega
  have hwsub : w ∈ List.sublistsLen 5 (w ++ [x1, x2]) :=
    List.mem_sublistsLen.2 ⟨List.sublist_append_left w [x1, x2], hlenw⟩
  have hwflush : ¬ (w.map suit).dedup.length = 1 :=
    no_flush_of_suit_bound hsuit (List.sublist_append_left w [x1, x2]) hlenw
  have hweval : evaluate5 w = (4, [3]) := by
    rw [evaluate5_wheel w hw, if_neg hwflush]
  have hge : scoreGtB (4, [3]) (bestOf (w ++ [x1, x2])) = false := by
    have h := hall (evaluate5 w) (List.mem_map_of_mem evaluate5 hwsub)
    rwa [hweval] at h
  exact scoreGtB_conn (hub _ hmem) hge

/-- A 7-card hand containing the six-high straight {6,5,4,3,2} plus any two
extra cards scores strictly above the wheel straight (4, [3]). -/
theorem bestOf_six_gt (w6 : List Nat) (y1 y2 : Nat)
    (hw6 : (w6.map rank).Perm [4, 3, 2, 1, 0]) :
    scoreGtB (bestOf (w6 ++ [y1, y2])) (4, [3]) = true := by
  have hlenw : w6.length = 5 := by simpa using hw6.length_eq
  have hlen7 : (w6 ++ [y1, y2]).length = 7 := by simp [hlenw]
  obtain ⟨_, hall⟩ := bestOf_spec _ hlen7
  have hwsub : w6 ∈ List.sublistsLen 5 (w6 ++ [y1, y2]) :=
    List.mem_sublistsLen.2 ⟨List.sublist_append_left w6 [y1, y2], hlenw⟩
  have hw6eval : scoreGtB (evaluate5 w6) (4, [3]) = true := by
    rw [evaluate5_six w6 hw6]
    split_ifs <;> decide
  have h1 : scoreGtB (evaluate5 w6) (bestOf (w6 ++ [y1, y2])) = false :=
    hall _ (List.mem_map_of_mem evaluate5 hwsub)
  rcases hcon : scoreGtB (bestOf (w6 ++ [y1, y2])) (4, [3]) with _ | _
  · exfalso
    have h2 := scoreGtB_not_gt_trans h1 hcon
    rw [hw6eval] at h2
    exact absurd h2 (by simp)
  · rfl

/-- C2: a 5-card hand whose rank set is {A,5,4,3,2} (the ace-low wheel) is
scored as a straight (or straight flush) with high rank index 3 (the five),
never with the ace value; consequently a 7-card hand containing the wheel plus
two off-suit cards that are not sixes (no flush, no higher straight) scores
exactly (4, [3]) and lies strictly below any 7-card hand containing the
six-high straight {6,5,4,3,2} plus two arbitrary extra cards. -/
theorem wheel_straight_low (cards5 : List Nat) (w : List Nat) (x1 x2 : Nat)
    (w6 : List Nat) (y1 y2 : Nat)
    (hc5 : (cards5.map rank).Perm [12, 3, 2, 1, 0])
    (hw : (w.map rank).Perm [12, 3, 2, 1, 0])
    (hx1 : rank x1 ≠ 4) (hx2 : rank x2 ≠ 4)
    (hsuit : ∀ s ∈ (w ++ [x1, x2]).map suit,
      ((w ++ [x1, x2]).filter (fun c => decide (suit c = s))).length ≤ 4)
    (hw6 : (w6.map rank).Perm [4, 3, 2, 1, 0]) :
    (evaluate5 cards5 = (4, [3]) ∨ evaluate5 cards5 = (8, [3])) ∧
    evaluate7 (w ++ [x1, x2]) = some (4, [3]) ∧
    evaluate7 (w6 ++ [y1, y2]) = some (bestOf (w6 ++ [y1, y2])) ∧
    scoreGtB (bestOf (w6 ++ [y1, y2])) (4, [3]) = true := by
  refine ⟨?_, ?_, ?_, bestOf_six_gt w6 y1 y2 hw6⟩
  · rw [evaluate5_wheel cards5 hc5]
    split_ifs
    · exact Or.inr rfl
    · exact Or.inl rfl
  · have hlenw : w.length = 5 := by simpa using hw.length_eq
    have hlen7 : (w ++ [x1, x2]).length = 7 := by simp [hlenw]
    rw [show evaluate7 (w ++ [x1, x2]) = some (bestOf (w ++ [x1, x2])) by
      simp [evaluate7, hlen7]]
    rw [bestOf_wheel_eq w x1 x2 hw hx1 hx2 hsuit]
  · have hlenw : w6.length = 5 := by simpa using hw6.length_eq
    have hlen7 : (w6 ++ [y1, y2]).length = 7 := by simp [hlenw]
    simp [evaluate7, hlen7]

set_option maxRecDepth 100000 in
/-- Witness for C2: the wheel A♠5♥4♦3♣2♠ with extra cards 7♥ and 9♦ scores
(4, [3]) and lies strictly below 6♠5♥4♦3♣2♠ with extra cards K♥ and K♦. -/
theorem wheel_straight_low_witness :
    (evaluate5 [12, 3, 2, 1, 13] = (4, [3]) ∨ evaluate5 [12, 3, 2, 1, 13] = (8, [3])) ∧
    evaluate7 ([12, 16, 28, 40, 0] ++ [18, 33]) = some (4, [3]) ∧
    evaluate7 ([4, 16, 28, 40, 0] ++ [24, 37]) = some (bestOf ([4, 16, 28, 40, 0] ++ [24, 37])) ∧
    scoreGtB (bestOf ([4, 16, 28, 40, 0] ++ [24, 37])) (4, [3]) = true :=
  wheel_straight_low [12, 3, 2, 1, 13] [12, 16, 28, 40, 0] 18 33 [4, 16, 28, 40, 0] 24 37
    (by decide) (by decide) (by decide) (by decide) (by decide) (by decide)

/-! ### equity.py claims -/

/-- With in-range, duplicate-free known cards, deck_without succeeds and
returns the ascending unseen deck. -/
theorem deckWithout_ok {known : List Nat} (hnd : known.Nodup) (hlt : ∀ c ∈ known, c ≤ 51) :
    deckWithout known = .ok ((List.range 52).filter (fun c => ¬ c ∈ known)) := by
  have hall : known.all (fun c => decide (c ≤ 51)) = true :=
    List.all_eq_true.2 (fun c hc => decide_eq_true (hlt c hc))
  have hlen : ((List.range 52).filter (fun c => ¬ c ∈ known)).length = 52 - known.length := by
    have hsplit := @List.length_eq_length_filter_add Nat (List.range 52)
      (fun c => decide (c ∈ known))
    have hin : ((List.range 52).filter (fun c => decide (c ∈ known))).Perm known := by
      refine (List.perm_ext_iff_of_nodup ((List.nodup_range 52).filter _) hnd).2 ?_
      intro a
      simp only [List.mem_filter, List.mem_range, decide_eq_true_eq]
      constructor
      · exact fun h => h.2
      · intro h
        exact ⟨Nat.lt_succ_of_le (hlt a h), h⟩
    have hfeq : (List.range 52).filter (fun c => ¬ c ∈ known) =
        (List.range 52).filter (fun c => ! decide (c ∈ known)) := by
      apply List.filter_congr
      intro c _
      simp [decide_not]
    rw [hfeq]
    have hrl : (List.range 52).length = 52 := List.length_range 52
    have hinlen : ((List.range 52).filter (fun c => decide (c ∈ known))).length = known.length :=
      hin.length_eq
    omega
  unfold deckWithout
  rw [if_neg (by simp [hall]), if_neg (not_not_intro hnd), if_neg (by omega)]

/-- The deterministic showdown value of equity_hu on a complete board:
1 for a hero win, 0 for a loss, 1/2 for a tie. -/
def showdownP (a b : List Nat) : ℚ :=
  if scoreGtB (bestOf a) (bestOf b) then 1 else if scoreGtB (bestOf b) (bestOf a) then 0 else 1/2

/-- Helper: the exact formula equity_hu returns on a complete board. -/
theorem equityHu_complete_board_formula {σ : Type} (env : Env σ) (h1 h2 v1 v2 : Nat)
    (board : List Nat) (iters seed : Int)
    (hb : board.length = 5)
    (hnd : ([h1, h2, v1, v2] ++ board).Nodup)
    (hlt : ∀ c ∈ [h1, h2, v1, v2] ++ board, c ≤ 51) :
    equityHu env h1 h2 v1 v2 board iters seed =
      .ok { hero := ⟨showdownP (h1 :: h2 :: board) (v1 :: v2 :: board), 0,
                     showdownP (h1 :: h2 :: board) (v1 :: v2 :: board),
                     showdownP (h1 :: h2 :: board) (v1 :: v2 :: board), 1⟩,
            villain := ⟨1 - showdownP (h1 :: h2 :: board) (v1 :: v2 :: board), 0,
                        1 - showdownP (h1 :: h2 :: board) (v1 :: v2 :: board),
                        1 - showdownP (h1 :: h2 :: board) (v1 :: v2 :: board), 1⟩ } := by
  simp only [equityHu]
  rw [deckWithout_ok hnd hlt]
  dsimp only
  rw [if_pos hb]
  have he1 : evaluate7 (h1 :: h2 :: board) = some (bestOf (h1 :: h2 :: board)) := by
    simp [evaluate7, hb]
  have he2 : evaluate7 (v1 :: v2 :: board) = some (bestOf (v1 :: v2 :: board)) := by
    simp [evaluate7, hb]
  rw [he1, he2]
  unfold showdownP
  rfl

/-- C6: every successful estimator call (either entry point, any branch)
returns hero and villain equities summing to exactly 1, the same standard
error on both sides, and the villain confidence interval [1-hi, 1-lo]
mirroring the hero interval [lo, hi]. -/
theorem equity_symmetry {σ : Type} (env : Env σ) (h1 h2 v1 v2 : Nat) (vr : String)
    (board : List Nat) (iters seed : Int) (r : EquityResult) :
    (equityHu env h1 h2 v1 v2 board iters seed = .ok r →
      r.hero.equity + r.villain.equity = 1 ∧ r.villain.stdev = r.hero.stdev ∧
      r.villain.ciLo = 1 - r.hero.ciHi ∧ r.villain.ciHi = 1 - r.hero.ciLo) ∧
    (equityVsRange env h1 h2 vr board iters seed = .ok r →
      r.hero.equity + r.villain.equity = 1 ∧ r.villain.stdev = r.hero.stdev ∧
      r.villain.ciLo = 1 - r.hero.ciHi ∧ r.villain.ciHi = 1 - r.hero.ciLo) := by
  constructor
  · intro h
    simp only [equityHu] at h
    cases hdk : deckWithout ([h1, h2, v1, v2] ++ board) with
    | error e => rw [hdk] at h; simp at h
    | ok deck =>
      rw [hdk] at h
      dsimp only at h
      split_ifs at h with hb hz
      · cases he1 : evaluate7 (h1 :: h2 :: board) with
        | none => rw [he1] at h; simp at h
        | some sh =>
          cases he2 : evaluate7 (v1 :: v2 :: board) with
          | none => rw [he1, he2] at h; simp at h
          | some sv =>
            rw [he1, he2] at h
            dsimp only at h
            injection h with h
            subst h
            exact ⟨by ring, rfl, rfl, rfl⟩
      · cases hmc : mcTrialsHu env h1 h2 v1 v2 board deck (5 - board.length)
            iters.toNat (env.rngInit seed) with
        | error e => rw [hmc] at h; simp at h
        | ok wt =>
          obtain ⟨wins, ties, stf⟩ := wt
          rw [hmc] at h
          simp at h
      · cases hmc : mcTrialsHu env h1 h2 v1 v2 board deck (5 - board.length)
            iters.toNat (env.rngInit seed) with
        | error e => rw [hmc] at h; simp at h
        | ok wt =>
          obtain ⟨wins, ties, stf⟩ := wt
          rw [hmc] at h
          dsimp only at h
          injection h with h
          subst h
          exact ⟨by ring, rfl, rfl, by ring⟩
  · intro h
    simp only [equityVsRange] at h
    cases hp : parseRange vr with
    | error e => rw [hp] at h; simp at h
    | ok raw =>
      rw [hp] at h
      dsimp only at h
      simp only [List.cons_append, List.nil_append] at h
      by_cases hav : filterDeadCombos raw (h1 :: h2 :: board) = []
      · rw [if_pos hav] at h
        simp at h
      · rw [if_neg hav] at h
        cases hdk : deckWithout (h1 :: h2 :: board) with
        | error e => rw [hdk] at h; simp at h
        | ok deck0 =>
          rw [hdk] at h
          dsimp only at h
          by_cases hneed : 5 - board.length = 0
          · rw [if_pos hneed] at h
            cases hen : enumRangeShowdown h1 h2 board
                (filterDeadCombos raw (h1 :: h2 :: board)) with
            | error e => rw [hen] at h; simp at h
            | ok wt =>
              obtain ⟨wins, ties⟩ := wt
              rw [hen] at h
              dsimp only at h
              injection h with h
              subst h
              exact ⟨by ring, rfl, rfl, rfl⟩
          · rw [if_neg hneed] at h
            cases hmc : mcTrialsRange env h1 h2 board deck0
                (filterDeadCombos raw (h1 :: h2 :: board)) (5 - board.length)
                iters.toNat (env.rngInit seed) with
            | error e => rw [hmc] at h; simp at h
            | ok wt =>
              obtain ⟨wins, ties, stf⟩ := wt
              rw [hmc] at h
              dsimp only at h
              by_cases hz : iters = 0
              · rw [if_pos hz] at h
                simp at h
              · rw [if_neg hz] at h
                injection h with h
                subst h
                exact ⟨by ring, rfl, rfl, by ring⟩

/-- C4: known versus known with a complete 5-card board uses no randomness —
the result is the same for every environment, seed and trial count: both
7-card hands are scored once, hero equity is exactly 1, 0 or 1/2 according to
the score comparison, the sample count is 1, the standard error is 0 and the
villain equity is one minus the hero equity (with the degenerate interval). -/
theorem equityHu_complete_board {σ : Type} (env : Env σ) (h1 h2 v1 v2 : Nat)
    (board : List Nat) (iters seed : Int)
    (hb : board.length = 5)
    (hnd : ([h1, h2, v1, v2] ++ board).Nodup)
    (hlt : ∀ c ∈ [h1, h2, v1, v2] ++ board, c ≤ 51) :
    equityHu env h1 h2 v1 v2 board iters seed =
      .ok { hero := ⟨showdownP (h1 :: h2 :: board) (v1 :: v2 :: board), 0,
                     showdownP (h1 :: h2 :: board) (v1 :: v2 :: board),
                     showdownP (h1 :: h2 :: board) (v1 :: v2 :: board), 1⟩,
            villain := ⟨1 - showdownP (h1 :: h2 :: board) (v1 :: v2 :: board), 0,
                        1 - showdownP (h1 :: h2 :: board) (v1 :: v2 :: board),
                        1 - showdownP (h1 :: h2 :: board) (v1 :: v2 :: board), 1⟩ } :=
  equityHu_complete_board_formula env h1 h2 v1 v2 board iters seed hb hnd hlt

deriving instance DecidableEq for Except

set_option maxRecDepth 100000 in
/-- Witness for C4: the exact-showdown test vector A♠A♥ versus K♦K♥ on the
board A♦K♠2♣9♦9♥. -/
theorem equityHu_complete_board_witness :
    equityHu env0 12 25 37 24 [38, 11, 39, 33, 20] 200000 0 =
      .ok { hero := ⟨showdownP (12 :: 25 :: [38, 11, 39, 33, 20])
                      (37 :: 24 :: [38, 11, 39, 33, 20]), 0,
                    showdownP (12 :: 25 :: [38, 11, 39, 33, 20])
                      (37 :: 24 :: [38, 11, 39, 33, 20]),
                    showdownP (12 :: 25 :: [38, 11, 39, 33, 20])
                      (37 :: 24 :: [38, 11, 39, 33, 20]), 1⟩,
            villain := ⟨1 - showdownP (12 :: 25 :: [38, 11, 39, 33, 20])
                          (37 :: 24 :: [38, 11, 39, 33, 20]), 0,
                        1 - showdownP (12 :: 25 :: [38, 11, 39, 33, 20])
                          (37 :: 24 :: [38, 11, 39, 33, 20]),
                        1 - showdownP (12 :: 25 :: [38, 11, 39, 33, 20])
                          (37 :: 24 :: [38, 11, 39, 33, 20]), 1⟩ } :=
  equityHu_complete_board env0 12 25 37 24 [38, 11, 39, 33, 20] 200000 0
    (by decide) (by decide) (by decide)

set_option maxRecDepth 100000 in
/-- Witness for C6 at a concrete successful known-versus-known call. -/
theorem equity_symmetry_witness :
    (⟨⟨1, 0, 1, 1, 1⟩, ⟨0, 0, 0, 0, 1⟩⟩ : EquityResult).hero.equity +
      (⟨⟨1, 0, 1, 1, 1⟩, ⟨0, 0, 0, 0, 1⟩⟩ : EquityResult).villain.equity = 1 ∧
    (⟨⟨1, 0, 1, 1, 1⟩, ⟨0, 0, 0, 0, 1⟩⟩ : EquityResult).villain.stdev =
      (⟨⟨1, 0, 1, 1, 1⟩, ⟨0, 0, 0, 0, 1⟩⟩ : EquityResult).hero.stdev ∧
    (⟨⟨1, 0, 1, 1, 1⟩, ⟨0, 0, 0, 0, 1⟩⟩ : EquityResult).villain.ciLo =
      1 - (⟨⟨1, 0, 1, 1, 1⟩, ⟨0, 0, 0, 0, 1⟩⟩ : EquityResult).hero.ciHi ∧
    (⟨⟨1, 0, 1, 1, 1⟩, ⟨0, 0, 0, 0, 1⟩⟩ : EquityResult).villain.ciHi =
      1 - (⟨⟨1, 0, 1, 1, 1⟩, ⟨0, 0, 0, 0, 1⟩⟩ : EquityResult).hero.ciLo :=
  (equity_symmetry env0 12 25 37 24 "KK" [38, 11, 39, 33, 20] 7 0
    ⟨⟨1, 0, 1, 1, 1⟩, ⟨0, 0, 0, 0, 1⟩⟩).1 (by
      have haux := equityHu_complete_board_formula env0 12 25 37 24 [38, 11, 39, 33, 20] 7 0
        (by decide) (by decide) (by decide)
      have hps : showdownP (12 :: 25 :: [38, 11, 39, 33, 20])
          (37 :: 24 :: [38, 11, 39, 33, 20]) = 1 := by
        unfold showdownP
        rw [if_pos (by decide)]
      rw [haux, hps]
      norm_num)

/-- C5: with an explicit seed, both estimators are pure functions of their
inputs and the seed — all randomness is drawn from a generator initialised
from the seed alone and threaded through the trial loop in trial order, so
two runs over the same environment with equal seeds produce identical
equity, standard-error and interval values. -/
theorem estimator_seed_determinism {σ : Type} (env : Env σ) (h1 h2 v1 v2 : Nat)
    (vr : String) (board : List Nat) (iters : Int) (s1 s2 : Int) (hs : s1 = s2) :
    equityHu env h1 h2 v1 v2 board iters s1 = equityHu env h1 h2 v1 v2 board iters s2 ∧
    equityVsRange env h1 h2 vr board iters s1 = equityVsRange env h1 h2 vr board iters s2 := by
  subst hs
  exact ⟨rfl, rfl⟩

/-- Witness for C5 at concrete inputs and seed 123. -/
theorem estimator_seed_determinism_witness :
    equityHu env0 25 11 37 24 [0, 1, 2] 50000 123 =
      equityHu env0 25 11 37 24 [0, 1, 2] 50000 123 ∧
    equityVsRange env0 25 11 "QQ" [0, 1, 2] 50000 123 =
      equityVsRange env0 25 11 "QQ" [0, 1, 2] 50000 123 :=
  estimator_seed_determinism env0 25 11 37 24 "QQ" [0, 1, 2] 50000 123 123 rfl

/-- C7: when the expanded villain range loses every combo to the dead cards
(hero hand and board), the range estimator fails with the descriptive
range-empty error before any deck computation, scoring, or sampling — it
never returns a degenerate equity value. -/
theorem equityVsRange_empty_range {σ : Type} (env : Env σ) (h1 h2 : Nat) (vr : String)
    (board : List Nat) (iters seed : Int) (raw : List (Nat × Nat))
    (hparse : parseRange vr = .ok raw)
    (hempty : filterDeadCombos raw (h1 :: h2 :: board) = []) :
    equityVsRange env h1 h2 vr board iters seed =
      .error "Range vide après retrait des cartes mortes (héros/board)." := by
  simp only [equityVsRange]
  rw [hparse]
  dsimp only
  rw [if_pos hempty]

set_option maxRecDepth 100000 in
/-- Witness for C7: the range "AA" is fully blocked when the hero holds
A♠A♥ and the board shows A♦. -/
theorem equityVsRange_empty_range_witness :
    equityVsRange env0 12 25 "AA" [38, 0, 1] 100 0 =
      .error "Range vide après retrait des cartes mortes (héros/board)." :=
  equityVsRange_empty_range env0 12 25 "AA" [38, 0, 1] 100 0
    [(12, 25), (12, 38), (12, 51), (25, 38), (25, 51), (38, 51)] (by decide) (by decide)

set_option maxRecDepth 100000 in
/-- C8 (amended): a card count other than exactly 7 is rejected by the 7-card
scorer before any scoring; but a trial count ≤ 0 is NOT rejected by the
estimator: with a complete board the trial count is ignored entirely and a
result is returned, and with an incomplete board a zero trial count only
fails afterwards, at the division by the trial count. -/
theorem evaluate7_count_checked_trials_unchecked :
    (∀ cards : List Nat, cards.length ≠ 7 → evaluate7 cards = none) ∧
    equityHu env0 12 25 37 24 [38, 11, 39, 33, 20] 0 0 =
      .ok { hero := ⟨1, 0, 1, 1, 1⟩, villain := ⟨0, 0, 0, 0, 1⟩ } ∧
    equityHu env0 12 25 37 24 [38, 11, 39, 33] 0 0 = .error "division by zero" := by
  refine ⟨?_, ?_, ?_⟩
  · intro cards hne
    simp [evaluate7, hne]
  · have haux := equityHu_complete_board_formula env0 12 25 37 24 [38, 11, 39, 33, 20] 0 0
      (by decide) (by decide) (by decide)
    have hps : showdownP (12 :: 25 :: [38, 11, 39, 33, 20])
        (37 :: 24 :: [38, 11, 39, 33, 20]) = 1 := by
      unfold showdownP
      rw [if_pos (by decide)]
    rw [haux, hps]
    norm_num
  · decide

/-- Witness for the universally quantified part of the amended C8. -/
theorem evaluate7_count_checked_trials_unchecked_witness :
    evaluate7 [0, 1, 2, 3, 4, 5] = none :=
  evaluate7_count_checked_trials_unchecked.1 [0, 1, 2, 3, 4, 5] (by decide)

set_option maxRecDepth 100000 in
/-- Counterexample to C8 as stated: a negative trial count (-1 ≤ 0) passed to
the Monte-Carlo estimator is not rejected — the call succeeds and returns a
degenerate zero-sample result. -/
theorem trials_le_zero_not_rejected :
    equityHu env0 12 25 37 24 [38, 11, 39, 33] (-1) 0 =
      .ok { hero := ⟨0, 0, 0, 0, -1⟩, villain := ⟨1, 0, 1, 1, -1⟩ } := by
  simp only [equityHu]
  rw [deckWithout_ok (by decide) (by decide)]
  dsimp only
  rw [if_neg (by decide)]
  rw [show ((-1 : Int)).toNat = 0 from rfl]
  dsimp only [mcTrialsHu]
  rw [if_neg (by decide)]
  norm_num [env0]

set_option maxRecDepth 400000 in
/-- C3 (code evaluation): the plus suffix on a non-pair token does not sweep
the lower rank — the loop sweeps the variable rank from the higher rank up to
the ace while keeping the written lower rank fixed, so with the higher rank
already an ace, "AQ+" expands to the AQ combos alone: 16 combos, not the 32 of
AQ together with AK that the specification and the repository test expect, and
"AQs+" to 4 combos, not 8.  Indeed the expansion of "AQ+" equals that of the
plain "AQ" token. -/
theorem expand_plus_nonpair_sweeps_high :
    rangeCount "AQ+" = some 16 ∧ rangeCount "AQs+" = some 4 ∧
    parseRange "AQ+" = parseRange "AQ" ∧ rangeCount "AK" = some 16 := by
  refine ⟨by decide, by decide, by decide, by decide⟩

set_option maxRecDepth 400000 in
/-- C9: the documented combo counts of the range grammar hold for the pair,
suited, offsuit, unqualified and dash-interval forms: TT has 6 combos, TT+
has 30, AKs 4, AKo 12, AK 16 and A5s-A2s 16. -/
theorem range_grammar_counts :
    rangeCount "TT" = some 6 ∧ rangeCount "TT+" = some 30 ∧
    rangeCount "AKs" = some 4 ∧ rangeCount "AKo" = some 12 ∧
    rangeCount "AK" = some 16 ∧ rangeCount "A5s-A2s" = some 16 := by
  refine ⟨by decide, by decide, by decide, by decide, by decide, by decide⟩
